import Mathlib

/-!
# Verification of the abydos token-based distance core

This file embeds the token-based distance/similarity framework of the
abydos repository (Millar distance, the Unknown-Q metric, and their shared
q-gram tokenizer) as Lean definitions and proves or refutes the frozen
claims about it.

The Millar combinator is translated directly from
`src/abydos/distance/_millar.py` (`Millar.dist`).  The shared tokenizer
(`_TokenDistance._tokenize` / the `QGrams` tokenizer) and the `UnknownQ`
class are not part of the source tree, so they are modelled from the
specification, with the literal test vectors of the spec's §8 (which the
spec declares to be the specification of record for Unknown-Q) fixing the
boundary convention and the combination formula.
-/

namespace Abydos

/-- Modelled from the spec: the shared q-gram tokenizer (`QGrams` /
`_TokenDistance._tokenize`, absent from `src/`).  `windows q l` lists all
contiguous length-`q` substrings of `l`, in order. -/
def windows (q : Nat) : List Char → List (List Char)
  | [] => []
  | c :: rest =>
      if q ≤ (c :: rest).length then (c :: rest).take q :: windows q rest
      else []

/-- Modelled from the spec: the shared q-gram tokenizer (`QGrams` /
`_TokenDistance._tokenize`, absent from `src/`).  An empty string yields no
tokens; otherwise the string is padded with `q - 1` leading `$` and
trailing `#` boundary markers and all length-`q` windows are emitted.  The
boundary-marker convention is the one forced by the spec's §8 literal test
vectors (e.g. `sim('a','') = 0.2` requires the one-character string to
yield exactly two tokens under the default `q = 2`). -/
def qgrams (q : Nat) (s : List Char) : List (List Char) :=
  if s = [] then []
  else windows q (List.replicate (q - 1) '$' ++ s ++ List.replicate (q - 1) '#')

/-- The token list of a string under the default configuration `q = 2`
(`qval=2`, the default the Millar and Unknown-Q claims are stated under). -/
def tokens (s : String) : List (List Char) :=
  qgrams 2 s.data

/-- The alphabet of `Millar.dist`: the set union of the tokens observed in
either input (`alphabet = set(src_tok.keys() | tar_tok.keys())`). -/
def millarAlphabet (src tar : String) : Finset (List Char) :=
  (tokens src).toFinset ∪ (tokens tar).toFinset

/-- The per-token contribution of the `Millar.dist` loop body, for a token
whose two frequency counts are `a` and `b`:
`n_k = a + b`, `src_val = a * log(a/n_k)` when `a` is nonzero (else `0`),
symmetrically `tar_val`, and the contribution is
`(src_val + tar_val + n_k * log 2) / n_k`. -/
noncomputable def millarContrib (a b : ℕ) : ℝ :=
  let n : ℕ := a + b
  let src_val : ℝ := if a ≠ 0 then (a : ℝ) * Real.log ((a : ℝ) / (n : ℝ)) else 0
  let tar_val : ℝ := if b ≠ 0 then (b : ℝ) * Real.log ((b : ℝ) / (n : ℝ)) else 0
  (src_val + tar_val + (n : ℝ) * Real.log 2) / (n : ℝ)

/-- The accumulated score of `Millar.dist` before the final clamp: the sum
of the per-token contributions over the alphabet.  Following the source,
the local `src_tok` is bound to the *target*'s tokens and `tar_tok` to the
*source*'s tokens (the assignments in `Millar.dist` swap them); iteration
over the Python set is order-independent, hence a `Finset` sum. -/
noncomputable def millarScore (src tar : String) : ℝ :=
  ∑ t in millarAlphabet src tar,
    millarContrib ((tokens tar).count t) ((tokens src).count t)

/-- `Millar.dist`: the accumulated score when it is positive, else `0.0`
(`if score > 0: return score` / `return 0.0`). -/
noncomputable def millarDist (src tar : String) : ℝ :=
  if 0 < millarScore src tar then millarScore src tar else 0

/-- Modelled from the spec: the multiset-intersection cardinality of two
token lists (the shared `_TokenDistance` intersection card, absent from
`src/`): each token counts with multiplicity `min` of its two counts. -/
def interCard (xs ys : List (List Char)) : ℕ :=
  ∑ t in xs.toFinset ∪ ys.toFinset, min (xs.count t) (ys.count t)

/-- Modelled from the spec: the Unknown-Q similarity (the `UnknownQ` class
is absent from `src/`; only its unit tests are present).  The spec declares
the literal test vectors the specification of record, and this closed form
reproduces every one of them exactly: with `a` the multiset-intersection
card and `b`, `c` the two one-sided cards of the default `q = 2` token
multisets, `sim = (2a + 2) / (2a + 4 + 3(b + c) + 2bc + a(b + c))`. -/
def unknownQSim (src tar : String) : ℚ :=
  let A := tokens src
  let B := tokens tar
  let a : ℕ := interCard A B
  let b : ℕ := A.length - interCard A B
  let c : ℕ := B.length - interCard A B
  (2 * (a : ℚ) + 2) /
    (2 * (a : ℚ) + 4 + 3 * ((b : ℚ) + (c : ℚ)) + 2 * (b : ℚ) * (c : ℚ)
      + (a : ℚ) * ((b : ℚ) + (c : ℚ)))

/-- Modelled from the spec: the Unknown-Q distance, the exact complement of
the similarity (`distance = 1 - similarity`). -/
def unknownQDist (src tar : String) : ℚ :=
  1 - unknownQSim src tar

/-- Modelled from the spec: the error taxonomy of the configuration step
(`_TokenDistance.__init__` / the tokenizer constructor, absent from
`src/`): an invalid-configuration error raised at construction time. -/
inductive ConfigError where
  | invalidConfiguration
deriving DecidableEq

/-- Modelled from the spec: an immutable combinator configuration holding
the q-gram width. -/
structure CombinatorConfig where
  q : ℤ
deriving DecidableEq

/-- Modelled from the spec: `configure(q)` constructs an immutable
combinator instance and fails with an invalid-configuration error when
`q < 1`; a valid `q` is kept as given, never silently defaulted. -/
def configure (q : ℤ) : Except ConfigError CombinatorConfig :=
  if q < 1 then .error .invalidConfiguration else .ok ⟨q⟩

theorem millarContrib_comm (a b : ℕ) : millarContrib a b = millarContrib b a := by
  simp only [millarContrib]
  rw [Nat.add_comm b a]
  ring

theorem millarContrib_left (a : ℕ) (h : a ≠ 0) : millarContrib a 0 = Real.log 2 := by
  have ha : (a : ℝ) ≠ 0 := Nat.cast_ne_zero.mpr h
  simp only [millarContrib, Nat.add_zero, if_pos h]
  rw [div_self ha, Real.log_one, mul_zero, if_neg (by simp), zero_add, zero_add,
    mul_comm (a : ℝ) (Real.log 2), mul_div_assoc, div_self ha, mul_one]

theorem millarContrib_right (b : ℕ) (h : b ≠ 0) : millarContrib 0 b = Real.log 2 := by
  rw [millarContrib_comm]
  exact millarContrib_left b h

theorem millarContrib_self (a : ℕ) (h : a ≠ 0) : millarContrib a a = 0 := by
  have ha : (a : ℝ) ≠ 0 := Nat.cast_ne_zero.mpr h
  simp only [millarContrib, if_pos h]
  have hn : ((a + a : ℕ) : ℝ) = 2 * (a : ℝ) := by push_cast; ring
  have hdiv : (a : ℝ) / ((a + a : ℕ) : ℝ) = (2 : ℝ)⁻¹ := by
    rw [hn, div_eq_iff (by positivity)]
    exact (inv_mul_cancel_left₀ two_ne_zero _).symm
  rw [hdiv, Real.log_inv, hn]
  have hz : (a : ℝ) * -Real.log 2 + (a : ℝ) * -Real.log 2 + 2 * (a : ℝ) * Real.log 2 = 0 := by
    ring
  rw [hz, zero_div]

theorem mem_millarAlphabet {src tar : String} {t : List Char} :
    t ∈ millarAlphabet src tar ↔ t ∈ tokens src ∨ t ∈ tokens tar := by
  simp [millarAlphabet]

theorem count_ne_zero_of_mem_millarAlphabet {src tar : String} {t : List Char}
    (h : t ∈ millarAlphabet src tar) :
    (tokens src).count t ≠ 0 ∨ (tokens tar).count t ≠ 0 := by
  rcases mem_millarAlphabet.mp h with hs | ht
  · exact Or.inl (List.count_pos_iff.mpr hs).ne'
  · exact Or.inr (List.count_pos_iff.mpr ht).ne'

theorem millarScore_self (s : String) : millarScore s s = 0 := by
  unfold millarScore
  refine Finset.sum_eq_zero fun t ht => ?_
  have hmem : t ∈ tokens s := by
    rcases mem_millarAlphabet.mp ht with h | h <;> exact h
  exact millarContrib_self _ (List.count_pos_iff.mpr hmem).ne'

theorem millarAlphabet_comm (src tar : String) :
    millarAlphabet src tar = millarAlphabet tar src :=
  Finset.union_comm _ _

theorem millarScore_comm (src tar : String) :
    millarScore src tar = millarScore tar src := by
  unfold millarScore
  rw [millarAlphabet_comm src tar]
  exact Finset.sum_congr rfl fun t _ => millarContrib_comm _ _

/-- When every alphabet token either has equal counts on the two sides or
is absent from one side, the accumulated score is `log 2` times the number
of one-sided tokens (the equal-count tokens contribute `0`, the one-sided
ones `log 2` each). -/
theorem millarScore_flat (src tar : String)
    (h : ∀ t ∈ millarAlphabet src tar,
      (tokens src).count t = (tokens tar).count t ∨
      (tokens src).count t = 0 ∨ (tokens tar).count t = 0) :
    millarScore src tar =
      Real.log 2 *
        ((millarAlphabet src tar).filter
          (fun t => (tokens src).count t = 0 ∨ (tokens tar).count t = 0)).card := by
  unfold millarScore
  rw [← Finset.sum_filter_add_sum_filter_not (millarAlphabet src tar)
    (fun t => (tokens src).count t = 0 ∨ (tokens tar).count t = 0)]
  have h1 : ∀ t ∈ (millarAlphabet src tar).filter
      (fun t => (tokens src).count t = 0 ∨ (tokens tar).count t = 0),
      millarContrib ((tokens tar).count t) ((tokens src).count t) = Real.log 2 := by
    intro t ht
    rcases Finset.mem_filter.mp ht with ⟨hmem, hzero⟩
    rcases hzero with hs | ht0
    · have htar : (tokens tar).count t ≠ 0 := by
        rcases count_ne_zero_of_mem_millarAlphabet hmem with h' | h'
        · exact absurd hs h'
        · exact h'
      rw [hs]
      exact millarContrib_left _ htar
    · have hsrc : (tokens src).count t ≠ 0 := by
        rcases count_ne_zero_of_mem_millarAlphabet hmem with h' | h'
        · exact h'
        · exact absurd ht0 h'
      rw [ht0]
      exact millarContrib_right _ hsrc
  have h2 : ∀ t ∈ (millarAlphabet src tar).filter
      (fun t => ¬((tokens src).count t = 0 ∨ (tokens tar).count t = 0)),
      millarContrib ((tokens tar).count t) ((tokens src).count t) = 0 := by
    intro t ht
    rcases Finset.mem_filter.mp ht with ⟨hmem, hboth⟩
    push_neg at hboth
    rcases h t hmem with heq | hz | hz
    · rw [← heq]
      exact millarContrib_self _ hboth.1
    · exact absurd hz hboth.1
    · exact absurd hz hboth.2
  rw [Finset.sum_congr rfl h1, Finset.sum_congr rfl h2, Finset.sum_const,
    Finset.sum_const, smul_zero, add_zero, nsmul_eq_mul, mul_comm]

/-- A flat token profile (equal counts or one-sided everywhere) with `n`
one-sided tokens, `n` nonzero, gives a Millar distance of `n * log 2`. -/
theorem millarDist_eq_card_mul (src tar : String)
    (h : ∀ t ∈ millarAlphabet src tar,
      (tokens src).count t = (tokens tar).count t ∨
      (tokens src).count t = 0 ∨ (tokens tar).count t = 0)
    (n : ℕ)
    (hn : ((millarAlphabet src tar).filter
      (fun t => (tokens src).count t = 0 ∨ (tokens tar).count t = 0)).card = n)
    (hpos : n ≠ 0) :
    millarDist src tar = n * Real.log 2 := by
  have hs : millarScore src tar = Real.log 2 * n := by
    rw [millarScore_flat src tar h, hn]
  have hlt : 0 < millarScore src tar := by
    rw [hs]
    exact mul_pos (Real.log_pos one_lt_two)
      (by exact_mod_cast Nat.pos_of_ne_zero hpos)
  rw [millarDist, if_pos hlt, hs, mul_comm]

/-- C1 counterexample: contrary to the claim (and to the doctests inside
`Millar.dist`), the Millar distance of the golden pair `("cat", "hat")` is
not `0.0`: the four one-sided boundary 2-grams each contribute `log 2`. -/
theorem millar_golden_cat_hat_ne_zero : millarDist "cat" "hat" ≠ 0 := by
  have h : millarDist "cat" "hat" = (4 : ℕ) * Real.log 2 :=
    millarDist_eq_card_mul "cat" "hat" (by decide) 4 (by decide) (by decide)
  rw [h]
  exact ne_of_gt (mul_pos (by norm_num) (Real.log_pos one_lt_two))

/-- C1 amended: under the default configuration the Millar distance of the
golden-test input pairs is strictly positive, namely `4 * log 2` for
`("cat", "hat")`, `7 * log 2` for `("Niall", "Neil")` and `10 * log 2` for
`("ATCG", "TAGC")` (one `log 2` per one-sided token of the alphabet). -/
theorem millar_golden_pair_values :
    millarDist "cat" "hat" = (4 : ℕ) * Real.log 2 ∧
    millarDist "Niall" "Neil" = (7 : ℕ) * Real.log 2 ∧
    millarDist "ATCG" "TAGC" = (10 : ℕ) * Real.log 2 :=
  ⟨millarDist_eq_card_mul "cat" "hat" (by decide) 4 (by decide) (by decide),
   millarDist_eq_card_mul "Niall" "Neil" (by decide) 7 (by decide) (by decide),
   millarDist_eq_card_mul "ATCG" "TAGC" (by decide) 10 (by decide) (by decide)⟩

/-- C2: for every string `s`, the Millar distance of `(s, s)` is exactly
`0.0`; in particular two empty strings give an empty alphabet and `0.0`. -/
theorem millar_dist_self :
    (∀ s : String, millarDist s s = 0) ∧ millarAlphabet "" "" = ∅ := by
  refine ⟨fun s => ?_, by decide⟩
  unfold millarDist
  rw [millarScore_self, if_neg (lt_irrefl 0)]

/-- C3: for every pair of strings, the Millar distance is symmetric (each
per-token contribution is symmetric in the two frequency counts). -/
theorem millar_dist_symm (a b : String) : millarDist a b = millarDist b a := by
  unfold millarDist
  rw [millarScore_comm a b]

/-- C4: the Millar distance is always nonnegative: the final clamp returns
`0.0` whenever the accumulated per-token sum is `≤ 0` and returns the
accumulated sum unchanged otherwise. -/
theorem millar_dist_nonneg_clamp (src tar : String) :
    0 ≤ millarDist src tar ∧
    (millarScore src tar ≤ 0 → millarDist src tar = 0) ∧
    (0 < millarScore src tar → millarDist src tar = millarScore src tar) := by
  unfold millarDist
  refine ⟨?_, fun h => if_neg (not_lt.mpr h), fun h => if_pos h⟩
  split
  · exact le_of_lt (by assumption)
  · exact le_refl 0

/-- Witness for C4 at concrete inputs: the clamp branch at two empty
strings (score `0`) and nonnegativity at `("cat", "hat")`. -/
theorem millar_dist_nonneg_clamp_witness :
    millarDist "" "" = 0 ∧ 0 ≤ millarDist "cat" "hat" := by
  have hscore : millarScore "" "" = 0 := by
    unfold millarScore
    rw [show millarAlphabet "" "" = ∅ from by decide, Finset.sum_empty]
  exact ⟨(millar_dist_nonneg_clamp "" "").2.1 (le_of_eq hscore),
    (millar_dist_nonneg_clamp "cat" "hat").1⟩

/-- C5: the Millar combinator is well defined on every token of the
alphabet: the divisor `n_t` is strictly positive, and each guarded
logarithm is only applied to a strictly positive argument. -/
theorem millar_welldefined (src tar : String) (t : List Char)
    (h : t ∈ millarAlphabet src tar) :
    0 < (tokens src).count t + (tokens tar).count t ∧
    ((tokens src).count t ≠ 0 →
      (0 : ℝ) < ((tokens src).count t : ℝ)
        / (((tokens src).count t : ℝ) + ((tokens tar).count t : ℝ))) ∧
    ((tokens tar).count t ≠ 0 →
      (0 : ℝ) < ((tokens tar).count t : ℝ)
        / (((tokens src).count t : ℝ) + ((tokens tar).count t : ℝ))) := by
  have hsum : 0 < (tokens src).count t + (tokens tar).count t := by
    rcases count_ne_zero_of_mem_millarAlphabet h with h' | h'
    · exact Nat.lt_of_lt_of_le (Nat.pos_of_ne_zero h') (Nat.le_add_right _ _)
    · exact Nat.lt_of_lt_of_le (Nat.pos_of_ne_zero h') (Nat.le_add_left _ _)
  have hsumR : (0 : ℝ) < ((tokens src).count t : ℝ) + ((tokens tar).count t : ℝ) := by
    exact_mod_cast hsum
  refine ⟨hsum, fun hs => ?_, fun ht => ?_⟩
  · exact div_pos (by exact_mod_cast Nat.pos_of_ne_zero hs) hsumR
  · exact div_pos (by exact_mod_cast Nat.pos_of_ne_zero ht) hsumR

/-- Witness for C5 at a concrete input: the shared token `at` of the pair
`("cat", "hat")`. -/
theorem millar_welldefined_witness :
    0 < (tokens "cat").count ['a', 't'] + (tokens "hat").count ['a', 't'] ∧
    ((tokens "cat").count ['a', 't'] ≠ 0 →
      (0 : ℝ) < ((tokens "cat").count ['a', 't'] : ℝ)
        / (((tokens "cat").count ['a', 't'] : ℝ)
          + ((tokens "hat").count ['a', 't'] : ℝ))) ∧
    ((tokens "hat").count ['a', 't'] ≠ 0 →
      (0 : ℝ) < ((tokens "hat").count ['a', 't'] : ℝ)
        / (((tokens "cat").count ['a', 't'] : ℝ)
          + ((tokens "hat").count ['a', 't'] : ℝ))) :=
  millar_welldefined "cat" "hat" ['a', 't'] (by decide)

/-- C10: a token present on only one side contributes exactly `log 2`
whatever its count; a token with equal counts contributes exactly `0`; and
for two strings with disjoint nonempty token multisets the Millar distance
is `log 2` times the alphabet cardinality. -/
theorem millar_contribution_structure :
    (∀ a : ℕ, a ≠ 0 → millarContrib a 0 = Real.log 2 ∧ millarContrib 0 a = Real.log 2) ∧
    (∀ a : ℕ, a ≠ 0 → millarContrib a a = 0) ∧
    ∀ src tar : String,
      (tokens src).toFinset ∩ (tokens tar).toFinset = ∅ →
      tokens src ≠ [] → tokens tar ≠ [] →
      millarDist src tar = Real.log 2 * (millarAlphabet src tar).card := by
  refine ⟨fun a ha => ⟨millarContrib_left a ha, millarContrib_right a ha⟩,
    fun a ha => millarContrib_self a ha, fun src tar hdisj hs ht => ?_⟩
  have hzero : ∀ t ∈ millarAlphabet src tar,
      (tokens src).count t = 0 ∨ (tokens tar).count t = 0 := by
    intro t hmem
    rcases mem_millarAlphabet.mp hmem with hin | hin
    · right
      refine List.count_eq_zero_of_not_mem fun hmem' => ?_
      have : t ∈ (tokens src).toFinset ∩ (tokens tar).toFinset :=
        Finset.mem_inter.mpr ⟨List.mem_toFinset.mpr hin, List.mem_toFinset.mpr hmem'⟩
      simp [hdisj] at this
    · left
      refine List.count_eq_zero_of_not_mem fun hmem' => ?_
      have : t ∈ (tokens src).toFinset ∩ (tokens tar).toFinset :=
        Finset.mem_inter.mpr ⟨List.mem_toFinset.mpr hmem', List.mem_toFinset.mpr hin⟩
      simp [hdisj] at this
  have hfilter : (millarAlphabet src tar).filter
      (fun t => (tokens src).count t = 0 ∨ (tokens tar).count t = 0) =
      millarAlphabet src tar :=
    Finset.filter_true_of_mem hzero
  have hscore : millarScore src tar =
      Real.log 2 * (millarAlphabet src tar).card := by
    rw [millarScore_flat src tar (fun t hmem => Or.inr (hzero t hmem)), hfilter]
  have hcardpos : 0 < (millarAlphabet src tar).card := by
    rcases List.exists_mem_of_ne_nil (tokens src) hs with ⟨x, hx⟩
    exact Finset.card_pos.mpr ⟨x, mem_millarAlphabet.mpr (Or.inl hx)⟩
  have hlt : 0 < millarScore src tar := by
    rw [hscore]
    exact mul_pos (Real.log_pos one_lt_two) (by exact_mod_cast hcardpos)
  rw [millarDist, if_pos hlt, hscore]

/-- Witness for C10 at concrete inputs: a one-sided token of count `3`, an
equal-count token of count `5`, and the disjoint pair `("ab", "cd")` with
its six-token alphabet. -/
theorem millar_contribution_structure_witness :
    millarContrib 3 0 = Real.log 2 ∧ millarContrib 5 5 = 0 ∧
    millarDist "ab" "cd" = Real.log 2 * (millarAlphabet "ab" "cd").card :=
  ⟨(millar_contribution_structure.1 3 (by decide)).1,
   millar_contribution_structure.2.1 5 (by decide),
   millar_contribution_structure.2.2 "ab" "cd" (by decide) (by decide) (by decide)⟩

theorem interCard_comm (xs ys : List (List Char)) :
    interCard xs ys = interCard ys xs := by
  unfold interCard
  rw [Finset.union_comm]
  exact Finset.sum_congr rfl fun t _ => min_comm _ _

theorem sum_count_toFinset (l : List (List Char)) :
    ∑ t in l.toFinset, l.count t = l.length := by
  rw [← List.sum_toFinset_count_eq_length l]
  refine Finset.sum_congr rfl fun t _ => ?_
  simp only [List.count_eq_countP]
  refine List.countP_congr fun x _ => ?_
  constructor <;> intro hx <;> simp only [beq_iff_eq] at hx ⊢ <;> exact hx

/-- The multiset-intersection card never exceeds either total count, so
the truncated subtractions in the one-sided cards are exact. -/
theorem interCard_le_left (xs ys : List (List Char)) :
    interCard xs ys ≤ xs.length := by
  unfold interCard
  calc ∑ t in xs.toFinset ∪ ys.toFinset, min (xs.count t) (ys.count t)
      ≤ ∑ t in xs.toFinset ∪ ys.toFinset, xs.count t :=
        Finset.sum_le_sum fun t _ => min_le_left _ _
    _ = ∑ t in xs.toFinset, xs.count t := by
        refine (Finset.sum_subset Finset.subset_union_left fun t _ ht => ?_).symm
        exact List.count_eq_zero_of_not_mem fun hm => ht (List.mem_toFinset.mpr hm)
    _ = xs.length := sum_count_toFinset xs

/-- Bounds for the Unknown-Q ratio in terms of the three nonnegative
cards: the similarity is strictly positive and at most one. -/
theorem unknownQ_ratio_bounds (a b c : ℚ) (ha : 0 ≤ a) (hb : 0 ≤ b) (hc : 0 ≤ c) :
    0 < (2 * a + 2) / (2 * a + 4 + 3 * (b + c) + 2 * b * c + a * (b + c)) ∧
    (2 * a + 2) / (2 * a + 4 + 3 * (b + c) + 2 * b * c + a * (b + c)) ≤ 1 := by
  have hbc : 0 ≤ b * c := mul_nonneg hb hc
  have habc : 0 ≤ a * (b + c) := mul_nonneg ha (by linarith)
  have hN : 0 < 2 * a + 2 := by linarith
  have hD : 0 < 2 * a + 4 + 3 * (b + c) + 2 * b * c + a * (b + c) := by linarith
  exact ⟨div_pos hN hD, (div_le_one hD).mpr (by linarith)⟩

theorem unknownQSim_pos_le_one (src tar : String) :
    0 < unknownQSim src tar ∧ unknownQSim src tar ≤ 1 := by
  unfold unknownQSim
  exact unknownQ_ratio_bounds _ _ _ (Nat.cast_nonneg _) (Nat.cast_nonneg _)
    (Nat.cast_nonneg _)

/-- C6: the Unknown-Q similarity reproduces the documented base cases
exactly under the default `q = 2` tokenization.  The decimal literals of
the spec are the floating-point renderings of the exact rationals proved
here: `0.5 = 1/2`, `0.2 = 1/5`, `0.125 = 1/8`,
`0.8333333333333334 = 5/6` and `0.023809523809523808 = 1/42`. -/
theorem unknownq_sim_base_cases :
    unknownQSim "" "" = 1 / 2 ∧
    unknownQSim "a" "" = 1 / 5 ∧ unknownQSim "" "a" = 1 / 5 ∧
    unknownQSim "abc" "" = 1 / 8 ∧ unknownQSim "" "abc" = 1 / 8 ∧
    unknownQSim "abc" "abc" = 5 / 6 ∧
    unknownQSim "abcd" "efgh" = 1 / 42 := by
  refine ⟨?_, ?_, ?_, ?_, ?_, ?_, ?_⟩
  · have h1 : interCard (tokens "") (tokens "") = 0 := by decide
    have h2 : (tokens "").length = 0 := by decide
    simp only [unknownQSim, h1, h2]
    norm_num
  · have h1 : interCard (tokens "a") (tokens "") = 0 := by decide
    have h2 : (tokens "a").length = 2 := by decide
    have h3 : (tokens "").length = 0 := by decide
    simp only [unknownQSim, h1, h2, h3]
    norm_num
  · have h1 : interCard (tokens "") (tokens "a") = 0 := by decide
    have h2 : (tokens "").length = 0 := by decide
    have h3 : (tokens "a").length = 2 := by decide
    simp only [unknownQSim, h1, h2, h3]
    norm_num
  · have h1 : interCard (tokens "abc") (tokens "") = 0 := by decide
    have h2 : (tokens "abc").length = 4 := by decide
    have h3 : (tokens "").length = 0 := by decide
    simp only [unknownQSim, h1, h2, h3]
    norm_num
  · have h1 : interCard (tokens "") (tokens "abc") = 0 := by decide
    have h2 : (tokens "").length = 0 := by decide
    have h3 : (tokens "abc").length = 4 := by decide
    simp only [unknownQSim, h1, h2, h3]
    norm_num
  · have h1 : interCard (tokens "abc") (tokens "abc") = 4 := by decide
    have h2 : (tokens "abc").length = 4 := by decide
    simp only [unknownQSim, h1, h2]
    norm_num
  · have h1 : interCard (tokens "abcd") (tokens "efgh") = 0 := by decide
    have h2 : (tokens "abcd").length = 5 := by decide
    have h3 : (tokens "efgh").length = 5 := by decide
    simp only [unknownQSim, h1, h2, h3]
    norm_num

/-- C7: the Unknown-Q distance is exactly one minus the similarity, and
both lie in the closed unit interval. -/
theorem unknownq_complement_and_range (src tar : String) :
    unknownQDist src tar = 1 - unknownQSim src tar ∧
    0 ≤ unknownQSim src tar ∧ unknownQSim src tar ≤ 1 ∧
    0 ≤ unknownQDist src tar ∧ unknownQDist src tar ≤ 1 := by
  obtain ⟨hpos, hle⟩ := unknownQSim_pos_le_one src tar
  refine ⟨rfl, le_of_lt hpos, hle, ?_, ?_⟩ <;> unfold unknownQDist <;> linarith

/-- C8: the Unknown-Q similarity is symmetric in its two arguments. -/
theorem unknownq_sim_symm (src tar : String) :
    unknownQSim src tar = unknownQSim tar src := by
  simp only [unknownQSim]
  rw [interCard_comm (tokens tar) (tokens src)]
  ring

/-- C9: constructing a combinator with a q-gram width below one fails fast
at construction time with an invalid-configuration error, and a valid
width is kept exactly as given, never silently defaulted. -/
theorem configure_validation (q : ℤ) :
    (q < 1 → configure q = .error .invalidConfiguration) ∧
    (¬q < 1 → configure q = .ok ⟨q⟩) := by
  unfold configure
  exact ⟨fun h => if_pos h, fun h => if_neg h⟩

/-- Witness for C9 at concrete widths: `q = 0` is rejected, `q = 2` is
accepted unchanged. -/
theorem configure_validation_witness :
    configure 0 = .error .invalidConfiguration ∧ configure 2 = .ok ⟨2⟩ :=
  ⟨(configure_validation 0).1 (by decide), (configure_validation 2).2 (by decide)⟩

end Abydos
